/-
Verification of the r34bot tag-aware result cache and fetch logic.

The definitions below are a shallow embedding of the Python source:
  - `src/cogs/cache_manager.py` (CacheManager.get / set / prune_expired,
    _parse_tags_for_lookup),
  - `src/cogs/gelbooru_watcher_base_cog.py` (_parse_tags, _filter_results,
    and the fetch / incremental-refresh / full-fetch logic of
    _fetch_posts_logic).

Modelling conventions:
  - Python strings are Lean `String`s; `str.split()` (whitespace split that
    drops empty tokens) is `pySplitRaw` / `pyLowerSplit` below, implemented by
    direct recursion over the character list so its algebraic laws are
    provable.  `.lower()` is `Char.toLower` character-wise (ASCII, which is
    what actual tag strings use).
  - Python sets of strings are `Finset String`.
  - The SQLite `cache` table is a `List CacheRow` in rowid (insertion) order;
    `INSERT OR REPLACE` deletes the conflicting row and appends a fresh one
    (SQLite assigns a new rowid), which is `CacheManager.set` below.
  - `time.time()` is an explicit `now : Int` argument; `json.dumps`/`loads`
    round-trips the stored result list, so rows hold the `List Post` directly.
  - Network I/O is an oracle `String → Nat → PageResponse` giving, per query
    string and page index, the outcome of the HTTP request; `random.choice`
    is an explicit `pick` argument; Discord-side gating (NSFW check, defer)
    is the internal-caller path (`interaction_or_ctx` a plain string), which
    the source skips over.
-/
import Mathlib

set_option maxRecDepth 4000

/-- A booru post as used by the bot: `id` (Python `int(post["id"])`),
its whitespace-delimited tag string, and `file_url`. -/
structure Post where
  id : Int
  tags : String
  fileUrl : String
deriving DecidableEq, Repr

/-- One row of the SQLite `cache` table: `tags TEXT PRIMARY KEY`,
`timestamp INTEGER`, `results TEXT` (the decoded result list). -/
structure CacheRow where
  tags : String
  timestamp : Int
  results : List Post
deriving DecidableEq, Repr

/-- The `cache` table in rowid (insertion) order. -/
abbrev CacheStore := List CacheRow

/-- Whitespace split of a character list, accumulating the current token in
reverse; models Python `str.split()` (no empty tokens). -/
def splitWsAux : List Char → List Char → List String
  | [], cur => if cur.isEmpty then [] else [String.mk cur.reverse]
  | c :: cs, cur =>
    if c.isWhitespace then
      (if cur.isEmpty then [] else [String.mk cur.reverse]) ++ splitWsAux cs []
    else splitWsAux cs (c :: cur)

/-- Python `s.split()`. -/
def pySplitRaw (s : String) : List String :=
  splitWsAux s.data []

/-- Python `s.strip().lower().split()` (lower-casing per character; stripping
is subsumed by the whitespace split). -/
def pyLowerSplit (s : String) : List String :=
  splitWsAux (s.data.map Char.toLower) []

/-- Python `t.startswith(pre)`, character-level (so that it reduces inside
the kernel). -/
def pyStartsWith (t pre : String) : Bool :=
  pre.data.isPrefixOf t.data

/-- Python `t[1:]`, character-level. -/
def pyDropOne (t : String) : String :=
  String.mk (t.data.drop 1)

/-- CacheManager._parse_tags_for_lookup: the set of tokens of
`tags_str.strip().lower().split()` that do not start with `-`. -/
def parseTagsForLookup (s : String) : Finset String :=
  ((pyLowerSplit s).filter (fun t => !(pyStartsWith t "-"))).toFinset

/-- One step of the best-candidate scan of CacheManager.get: keep the row if
its parsed tag set is a subset of the request and strictly beats the best
cardinality so far (the Python code starts from best length −1, so the first
subset row always becomes the candidate). -/
def betterCandidate (req : Finset String) (best : Option CacheRow) (r : CacheRow) :
    Option CacheRow :=
  if parseTagsForLookup r.tags ⊆ req then
    match best with
    | none => some r
    | some b =>
      if (parseTagsForLookup b.tags).card < (parseTagsForLookup r.tags).card then some r
      else some b
  else best

/-- The scan over all rows of the cache table (`SELECT tags, timestamp,
results FROM cache`), in order. -/
def scanRows (req : Finset String) (rows : CacheStore) : Option CacheRow :=
  rows.foldl (betterCandidate req) none

/-- CacheManager.get: subset-match lookup.  Returns the winning row's results,
`is_stale = (now - timestamp >= cache_ttl)` and the stored key, or `none` when
no stored key parses to a subset of the requested positive-tag set. -/
def CacheManager.get (store : CacheStore) (now ttl : Int) (tags : String) :
    Option (List Post × Bool × String) :=
  match scanRows (parseTagsForLookup tags) store with
  | some r => some (r.results, decide (ttl ≤ now - r.timestamp), r.tags)
  | none => none

/-- CacheManager.set: `INSERT OR REPLACE INTO cache` with `tags` as primary
key; SQLite drops any conflicting row and appends the new one with a fresh
rowid, and the timestamp written is `int(time.time())`. -/
def CacheManager.set (store : CacheStore) (now : Int) (tags : String)
    (results : List Post) : CacheStore :=
  store.filter (fun r => !decide (r.tags = tags)) ++ [⟨tags, now, results⟩]

/-- CacheManager.prune_expired: `DELETE FROM cache WHERE timestamp < now -
cache_max_lifetime`. -/
def CacheManager.pruneExpired (store : CacheStore) (now maxLifetime : Int) :
    CacheStore :=
  store.filter (fun r => !decide (r.timestamp < now - maxLifetime))

/-- GelbooruWatcherBaseCog._parse_tags: positive tags are the non-`-` tokens,
negative tags are the `-` tokens with the marker stripped. -/
def parseTags (s : String) : Finset String × Finset String :=
  let toks := pyLowerSplit s
  ( (toks.filter (fun t => !(pyStartsWith t "-"))).toFinset
  , ((toks.filter (fun t => pyStartsWith t "-")).map pyDropOne).toFinset )

/-- GelbooruWatcherBaseCog._filter_results: a post's own tag set is
`set(post.get("tags", "").split())` (no lower-casing). -/
def postTags (p : Post) : Finset String :=
  (pySplitRaw p.tags).toFinset

/-- GelbooruWatcherBaseCog._filter_results: identity when both constraint sets
are empty, otherwise keep posts whose tag set contains every required tag and
meets no excluded tag. -/
def filterResults (results : List Post) (requiredTags excludedTags : Finset String) :
    List Post :=
  if requiredTags = ∅ ∧ excludedTags = ∅ then results
  else
    results.filter (fun p =>
      decide (requiredTags ⊆ postTags p) && decide (excludedTags ∩ postTags p = ∅))

/-- Containment of a character list as a contiguous segment of another,
models Python `needle in haystack` on strings. -/
def substrAux (needle : List Char) : List Char → Bool
  | [] => needle.isEmpty
  | c :: t => needle.isPrefixOf (c :: t) || substrAux needle t

/-- Python `needle in haystack` on strings (raw substring test). -/
def strContains (hay needle : String) : Bool :=
  substrAux needle.data hay.data

/-- Lines 126-128 of _fetch_posts_logic: append `" -ai_generated"` unless the
raw input already contains `"-ai_generated"` as a substring. -/
def injectSafety (tags : String) : String :=
  if strContains tags "-ai_generated" then tags else tags ++ " -ai_generated"

/-- The cog's hardcoded `tag_aliases` lookup (an association list; the shipped
table is empty). -/
def aliasLookup (aliases : List (String × String)) (t : String) : Option String :=
  (aliases.find? (fun p => decide (p.1 = t))).map Prod.snd

/-- Lines 160-164: replace every aliased tag of the positive set by its
canonical form (set-valued result of the remove/add loop). -/
def applyAliases (aliases : List (String × String)) (s : Finset String) :
    Finset String :=
  (s.filter (fun t => aliasLookup aliases t = none)) ∪
    (s.filter (fun t => (aliasLookup aliases t).isSome)).image
      (fun t => (aliasLookup aliases t).getD t)

/-- Line 167: `" ".join(sorted(list(api_tags_set)))`. -/
def joinSorted (s : Finset String) : String :=
  String.intercalate " " (s.sort (· ≤ ·))

/-- The cache key actually used by _fetch_posts_logic for a raw input: safety
injection, then positive-tag parse, aliasing, sort and join. -/
def computeApiKey (aliases : List (String × String)) (tags : String) : String :=
  joinSorted (applyAliases aliases (parseTags (injectSafety tags)).1)

/-- The cache key the same pipeline would produce without the safety-tag
injection (stated only for comparison with `computeApiKey`). -/
def keyWithoutInjection (aliases : List (String × String)) (tags : String) : String :=
  joinSorted (applyAliases aliases (parseTags tags).1)

/-- Outcome of one upstream page request: HTTP 200 with a JSON list, HTTP 200
with a non-list JSON body, a non-200 status, or a raised exception (transport
or JSON-decode failure). -/
inductive PageResponse where
  | ok (data : List Post)
  | notList
  | httpError (status : Nat)
  | exn (msg : String)
deriving DecidableEq, Repr

/-- Line 185: `max(int(p["id"]) for p in cached_results) if cached_results
else 0`. -/
def latestKnownId : List Post → Int
  | [] => 0
  | p :: ps => ps.foldl (fun m q => max m q.id) p.id

/-- Lines 189-233 of _fetch_posts_logic (incremental fetch): up to `fuel`
pages starting at `pid`; per page keep the items with id above `latestId`;
stop on any failure, on a non-list/empty body, or as soon as a page yields
fewer new items than it returned.  Also counts the page requests issued. -/
def incrementalLoop (oracle : Nat → PageResponse) (latestId : Int) :
    Nat → Nat → List Post → List Post × Nat
  | 0, _, acc => (acc, 0)
  | fuel + 1, pid, acc =>
    match oracle pid with
    | .ok data =>
      if data.isEmpty then (acc, 1)
      else
        let pageNew := data.filter (fun p => decide (latestId < p.id))
        if pageNew.length < data.length then (acc ++ pageNew, 1)
        else
          let r := incrementalLoop oracle latestId fuel (pid + 1) (acc ++ pageNew)
          (r.1, r.2 + 1)
    | _ => (acc, 1)

/-- Lines 240-244: drop every new post whose id already occurs in the cached
set, then prepend the remaining new posts to the cached ones. -/
def mergeNewPosts (newPosts cached : List Post) : List Post :=
  newPosts.filter (fun p => !((cached.map Post.id).contains p.id)) ++ cached

/-- Result of the stale-cache incremental refresh (lines 180-245): the data to
serve, the updated store, the raw newly fetched posts, and the number of page
requests issued. -/
structure RefreshOutcome where
  sourceData : List Post
  store : CacheStore
  newPosts : List Post
  requests : Nat
deriving Repr

/-- Lines 180-245 of _fetch_posts_logic: incremental refresh of a stale cache
entry under its matched key.  When no new posts were fetched the store is left
untouched (no `set`, timestamp unchanged). -/
def incrementalRefresh (oracle : Nat → PageResponse) (now : Int)
    (store : CacheStore) (matchedKey : String) (cached : List Post) :
    RefreshOutcome :=
  let res := incrementalLoop oracle (latestKnownId cached) 10 0 []
  if res.1.isEmpty then ⟨cached, store, res.1, res.2⟩
  else
    let merged := mergeNewPosts res.1 cached
    ⟨merged, CacheManager.set store now matchedKey merged, res.1, res.2⟩

/-- The user-visible string for a non-200 first page of a full fetch
(line 299). -/
def httpErrorMessage (cogName : String) (status : Nat) : String :=
  s!"Failed to fetch data from {cogName}. HTTP Status: {status}"

/-- The user-visible string for an exception on the first page of a full fetch
(line 304). -/
def networkErrorMessage (cogName e : String) : String :=
  s!"Network error fetching data from {cogName}: {e}"

/-- The user-visible string when filtering leaves no results (line 317). -/
def noResultsMessage (cogName tags : String) : String :=
  s!"No results found from {cogName} for the tags: `{tags}`."

/-- Lines 255-305 of _fetch_posts_logic (full fetch on cache miss): up to
`fuel` pages starting at `pid`; accumulate list pages, stop after a short
page; a non-200 status or exception on the very first page aborts with a
user-visible error string, later ones just end pagination; a non-list or
empty body ends pagination silently.  Also counts the page requests. -/
def fullFetchLoop (cogName : String) (oracle : Nat → PageResponse) :
    Nat → Nat → List Post → Except String (List Post) × Nat
  | 0, _, acc => (.ok acc, 0)
  | fuel + 1, pid, acc =>
    match oracle pid with
    | .ok data =>
      if data.isEmpty then (.ok acc, 1)
      else
        let acc2 := acc ++ data
        if data.length < 1000 then (.ok acc2, 1)
        else
          let r := fullFetchLoop cogName oracle fuel (pid + 1) acc2
          (r.1, r.2 + 1)
    | .notList => (.ok acc, 1)
    | .httpError s =>
      if pid = 0 then (.error (httpErrorMessage cogName s), 1) else (.ok acc, 1)
    | .exn e =>
      if pid = 0 then (.error (networkErrorMessage cogName e), 1) else (.ok acc, 1)

/-- Concatenation of the pages `d pid, d (pid+1), …` for `k` pages; used to
describe the data a multi-page fetch has accumulated. -/
def pagesFrom (d : Nat → List Post) (pid : Nat) : Nat → List Post
  | 0 => []
  | k + 1 => d pid ++ pagesFrom d (pid + 1) k

/-- Static configuration of a concrete watcher cog: its name, alias table and
post-URL template. -/
structure CogConfig where
  cogName : String
  aliases : List (String × String)
  postUrl : Int → String

/-- Everything _fetch_posts_logic computes before the final filtering step:
the fetched or cached data (or a user-visible error), the updated store, the
request count, and the tag-processing products. -/
structure CoreOutcome where
  data : Except String (List Post)
  store : CacheStore
  requests : Nat
  tagsToProcess : String
  posTags : Finset String
  negTags : Finset String
  apiKey : String

/-- Lines 125-309 of _fetch_posts_logic: tag processing, cache lookup, and the
fresh / stale-incremental / miss-full-fetch trichotomy.  `oracle` maps the
query string sent upstream and a page index to that request's outcome. -/
def fetchCore (cfg : CogConfig) (oracle : String → Nat → PageResponse)
    (now ttl : Int) (store : CacheStore) (tags : String) : CoreOutcome :=
  let tagsToProcess := injectSafety tags
  let origPos := (parseTags tagsToProcess).1
  let origNeg := (parseTags tagsToProcess).2
  let apiKey := computeApiKey cfg.aliases tags
  match CacheManager.get store now ttl apiKey with
  | some (cached, isStale, matchedKey) =>
    if isStale then
      let out := incrementalRefresh (oracle matchedKey) now store matchedKey cached
      ⟨.ok out.sourceData, out.store, out.requests, tagsToProcess, origPos, origNeg, apiKey⟩
    else
      ⟨.ok cached, store, 0, tagsToProcess, origPos, origNeg, apiKey⟩
  | none =>
    let res := fullFetchLoop cfg.cogName (oracle apiKey) 10 0 []
    match res.1 with
    | .error msg => ⟨.error msg, store, res.2, tagsToProcess, origPos, origNeg, apiKey⟩
    | .ok data =>
      let store2 := if data.isEmpty then store else CacheManager.set store now apiKey data
      ⟨.ok data, store2, res.2, tagsToProcess, origPos, origNeg, apiKey⟩

/-- The three shapes _fetch_posts_logic returns: a plain string (error or
no-results message), the full filtered list (override path for internal
callers), or the random-pick tuple `(text, results, tags_to_process)`. -/
inductive FetchResult where
  | message (s : String)
  | listing (posts : List Post)
  | picked (text : String) (posts : List Post) (tagsUsed : String)
deriving DecidableEq, Repr

/-- Observable outcome of one _fetch_posts_logic call: the returned value, the
cache store afterwards, and the number of upstream page requests issued. -/
structure FetchOutcome where
  result : FetchResult
  store : CacheStore
  requests : Nat
deriving DecidableEq, Repr

/-- The `f"<{post_url}>\n{random_result['file_url']}"` text of line 326. -/
def pickedText (cfg : CogConfig) (p : Post) : String :=
  let u := cfg.postUrl p.id
  let f := p.fileUrl
  s!"<{u}>\n{f}"

/-- Lines 116-329 of _fetch_posts_logic end to end: fetch, filter with the
original (unaliased) positive and negative tags, and shape the return value;
`pick` stands for `random.choice`. -/
def fetchPostsLogic (cfg : CogConfig) (oracle : String → Nat → PageResponse)
    (pick : List Post → Post) (now ttl : Int) (store : CacheStore) (tags : String)
    (pidOverride limitOverride : Option Nat) : FetchOutcome :=
  let core := fetchCore cfg oracle now ttl store tags
  match core.data with
  | .error msg => ⟨.message msg, core.store, core.requests⟩
  | .ok sourceData =>
    let finalResults := filterResults sourceData core.posTags core.negTags
    if finalResults.isEmpty then
      ⟨.message (noResultsMessage cfg.cogName tags), core.store, core.requests⟩
    else if pidOverride.isSome || limitOverride.isSome then
      ⟨.listing finalResults, core.store, core.requests⟩
    else
      ⟨.picked (pickedText cfg (pick finalResults)) finalResults core.tagsToProcess,
        core.store, core.requests⟩

/-! ### Lemmas about the cache scan -/

theorem scanRows_concat (req : Finset String) (rows : CacheStore) (r : CacheRow) :
    scanRows req (rows ++ [r]) = betterCandidate req (scanRows req rows) r := by
  simp [scanRows, List.foldl_append]

theorem betterCandidate_eq_none_iff (req : Finset String) (best : Option CacheRow)
    (r : CacheRow) :
    betterCandidate req best r = none ↔
      best = none ∧ ¬ parseTagsForLookup r.tags ⊆ req := by
  by_cases h : parseTagsForLookup r.tags ⊆ req
  · cases best with
    | none => simp [betterCandidate, h]
    | some b =>
      simp only [betterCandidate, h, if_true]
      constructor
      · intro hc; split at hc <;> simp_all
      · rintro ⟨hc, -⟩; simp_all
  · cases best <;> simp [betterCandidate, h]

theorem scanRows_eq_none_iff (req : Finset String) (rows : CacheStore) :
    scanRows req rows = none ↔
      ∀ r ∈ rows, ¬ parseTagsForLookup r.tags ⊆ req := by
  induction rows using List.reverseRecOn with
  | nil => simp [scanRows]
  | append_singleton l r ih =>
    rw [scanRows_concat, betterCandidate_eq_none_iff, ih]
    constructor
    · rintro ⟨hall, hr⟩ x hx
      rcases List.mem_append.1 hx with hx | hx
      · exact hall x hx
      · rcases List.mem_singleton.1 hx with rfl; exact hr
    · intro hall
      exact ⟨fun x hx => hall x (List.mem_append.2 (Or.inl hx)),
        hall r (List.mem_append.2 (Or.inr (List.mem_singleton.2 rfl)))⟩

theorem scanRows_eq_some (req : Finset String) (rows : CacheStore) (b : CacheRow)
    (h : scanRows req rows = some b) :
    ∃ l1 l2, rows = l1 ++ b :: l2 ∧ parseTagsForLookup b.tags ⊆ req ∧
      (∀ x ∈ l1, parseTagsForLookup x.tags ⊆ req →
        (parseTagsForLookup x.tags).card < (parseTagsForLookup b.tags).card) ∧
      (∀ x ∈ l2, parseTagsForLookup x.tags ⊆ req →
        (parseTagsForLookup x.tags).card ≤ (parseTagsForLookup b.tags).card) := by
  induction rows using List.reverseRecOn generalizing b with
  | nil => simp [scanRows] at h
  | append_singleton l r ih =>
    rw [scanRows_concat] at h
    by_cases hs : parseTagsForLookup r.tags ⊆ req
    · cases hsc : scanRows req l with
      | none =>
        rw [hsc] at h
        simp only [betterCandidate, hs, if_true] at h
        obtain rfl : r = b := by injection h
        refine ⟨l, [], rfl, hs, ?_, by simp⟩
        intro x hx hsubx
        exact absurd hsubx ((scanRows_eq_none_iff req l).1 hsc x hx)
      | some b0 =>
        rw [hsc] at h
        obtain ⟨l1, l2, hdecomp, hsub0, hlt, hle⟩ := ih b0 hsc
        simp only [betterCandidate, hs, if_true] at h
        by_cases hcard :
            (parseTagsForLookup b0.tags).card < (parseTagsForLookup r.tags).card
        · rw [if_pos hcard] at h
          obtain rfl : r = b := by injection h
          refine ⟨l, [], rfl, hs, ?_, by simp⟩
          intro x hx hsubx
          rw [hdecomp] at hx
          rcases List.mem_append.1 hx with hx | hx
          · exact lt_trans (hlt x hx hsubx) hcard
          · rcases List.mem_cons.1 hx with rfl | hx
            · exact hcard
            · exact lt_of_le_of_lt (hle x hx hsubx) hcard
        · rw [if_neg hcard] at h
          obtain rfl : b0 = b := by injection h
          refine ⟨l1, l2 ++ [r], by rw [hdecomp]; simp, hsub0, hlt, ?_⟩
          intro x hx hsubx
          rcases List.mem_append.1 hx with hx | hx
          · exact hle x hx hsubx
          · rcases List.mem_singleton.1 hx with rfl
            exact le_of_not_lt hcard
    · have hkeep : betterCandidate req (scanRows req l) r = scanRows req l := by
        cases scanRows req l <;> simp [betterCandidate, hs]
      rw [hkeep] at h
      obtain ⟨l1, l2, hdecomp, hsub0, hlt, hle⟩ := ih b h
      refine ⟨l1, l2 ++ [r], by rw [hdecomp]; simp, hsub0, hlt, ?_⟩
      intro x hx hsubx
      rcases List.mem_append.1 hx with hx | hx
      · exact hle x hx hsubx
      · rcases List.mem_singleton.1 hx with rfl
        exact absurd hsubx hs

/-- C1: CacheManager.get scans all stored entries, parses each stored key
into its positive-tag set, and returns an entry only if that set is a subset
of the requested positive-tag set; among all subset matches the first entry
in scan order with the largest tag-set cardinality wins, together with
`isStale = (now - timestamp ≥ ttl)` and the stored key of the winning entry;
if no stored entry's tag set is a subset of the request, get returns none. -/
theorem cacheGet_subset_match_spec (store : CacheStore) (now ttl : Int) (tags : String) :
    (CacheManager.get store now ttl tags = none ↔
      ∀ r ∈ store, ¬ parseTagsForLookup r.tags ⊆ parseTagsForLookup tags) ∧
    (∀ res stale mkey, CacheManager.get store now ttl tags = some (res, stale, mkey) →
      ∃ l1 r l2, store = l1 ++ r :: l2 ∧ mkey = r.tags ∧ res = r.results ∧
        stale = decide (ttl ≤ now - r.timestamp) ∧
        parseTagsForLookup r.tags ⊆ parseTagsForLookup tags ∧
        (∀ x ∈ l1, parseTagsForLookup x.tags ⊆ parseTagsForLookup tags →
          (parseTagsForLookup x.tags).card < (parseTagsForLookup r.tags).card) ∧
        (∀ x ∈ l2, parseTagsForLookup x.tags ⊆ parseTagsForLookup tags →
          (parseTagsForLookup x.tags).card ≤ (parseTagsForLookup r.tags).card)) := by
  constructor
  · unfold CacheManager.get
    cases hsc : scanRows (parseTagsForLookup tags) store with
    | some r =>
      simp only [reduceCtorEq, false_iff, not_forall]
      obtain ⟨l1, l2, hdecomp, hsub, -, -⟩ := scanRows_eq_some _ _ _ hsc
      exact ⟨r, by rw [hdecomp]; exact List.mem_append.2 (Or.inr (List.mem_cons_self _ _)),
        fun hn => hn hsub⟩
    | none =>
      simp only [true_iff]
      exact (scanRows_eq_none_iff _ _).1 hsc
  · intro res stale mkey h
    unfold CacheManager.get at h
    cases hsc : scanRows (parseTagsForLookup tags) store with
    | none => rw [hsc] at h; exact absurd h (by simp)
    | some r =>
      rw [hsc] at h
      obtain ⟨hres, hstale, hmk⟩ : r.results = res ∧
          decide (ttl ≤ now - r.timestamp) = stale ∧ r.tags = mkey := by
        injection h with h; injection h with h1 h2; injection h2 with h2 h3
        exact ⟨h1, h2, h3⟩
      obtain ⟨l1, l2, hdecomp, hsub, hlt, hle⟩ := scanRows_eq_some _ _ _ hsc
      exact ⟨l1, r, l2, hdecomp, hmk.symm, hres.symm, hstale.symm, hsub, hlt, hle⟩

theorem cacheGet_subset_match_witness :
    ∃ l1 r l2,
      ([⟨"a", 100, [⟨1, "x", ""⟩]⟩, ⟨"a b", 100, [⟨2, "y", ""⟩]⟩] : CacheStore) =
        l1 ++ r :: l2 ∧
      ("a b" : String) = r.tags ∧ ([⟨2, "y", ""⟩] : List Post) = r.results ∧
      false = decide ((50 : Int) ≤ 100 - r.timestamp) ∧
      parseTagsForLookup r.tags ⊆ parseTagsForLookup "a b c" ∧
      (∀ x ∈ l1, parseTagsForLookup x.tags ⊆ parseTagsForLookup "a b c" →
        (parseTagsForLookup x.tags).card < (parseTagsForLookup r.tags).card) ∧
      (∀ x ∈ l2, parseTagsForLookup x.tags ⊆ parseTagsForLookup "a b c" →
        (parseTagsForLookup x.tags).card ≤ (parseTagsForLookup r.tags).card) :=
  (cacheGet_subset_match_spec
      [⟨"a", 100, [⟨1, "x", ""⟩]⟩, ⟨"a b", 100, [⟨2, "y", ""⟩]⟩] 100 50 "a b c").2
    [⟨2, "y", ""⟩] false "a b" (by decide)

/-- C9: because the empty tag set is a subset of every request, whenever the
store holds an entry whose key parses to zero positive tags, every get finds
a subset match and never returns none; and when no stored entry with a
nonempty matching tag set exists, the returned entry is such a zero-tag
entry. -/
theorem cacheGet_emptyKey_always_matches (store : CacheStore) (now ttl : Int)
    (tags : String) (r : CacheRow) (hr : r ∈ store)
    (hempty : parseTagsForLookup r.tags = ∅) :
    (CacheManager.get store now ttl tags).isSome = true ∧
    ((∀ x ∈ store, parseTagsForLookup x.tags ⊆ parseTagsForLookup tags →
        parseTagsForLookup x.tags = ∅) →
      ∃ res stale mkey, CacheManager.get store now ttl tags = some (res, stale, mkey) ∧
        parseTagsForLookup mkey = ∅) := by
  have hsub : parseTagsForLookup r.tags ⊆ parseTagsForLookup tags := by
    rw [hempty]; exact Finset.empty_subset _
  have hnn : ¬ CacheManager.get store now ttl tags = none := by
    intro hn
    unfold CacheManager.get at hn
    cases hsc : scanRows (parseTagsForLookup tags) store with
    | some w => rw [hsc] at hn; exact absurd hn (by simp)
    | none => exact ((scanRows_eq_none_iff _ _).1 hsc r hr) hsub
  constructor
  · cases h : CacheManager.get store now ttl tags with
    | none => exact absurd h hnn
    | some v => rfl
  · intro hall
    unfold CacheManager.get at hnn ⊢
    cases hsc : scanRows (parseTagsForLookup tags) store with
    | none => rw [hsc] at hnn; exact absurd rfl hnn
    | some w =>
      obtain ⟨l1, l2, hdecomp, hsubw, -, -⟩ := scanRows_eq_some _ _ _ hsc
      refine ⟨w.results, decide (ttl ≤ now - w.timestamp), w.tags, rfl, ?_⟩
      have hwmem : w ∈ store := by
        rw [hdecomp]
        exact List.mem_append.2 (Or.inr (List.mem_cons_self _ _))
      exact hall w hwmem hsubw

theorem cacheGet_emptyKey_witness :
    (CacheManager.get [⟨"", 0, []⟩] 0 1 "zzz").isSome = true ∧
    ((∀ x ∈ ([⟨"", 0, []⟩] : CacheStore),
        parseTagsForLookup x.tags ⊆ parseTagsForLookup "zzz" →
        parseTagsForLookup x.tags = ∅) →
      ∃ res stale mkey, CacheManager.get [⟨"", 0, []⟩] 0 1 "zzz" = some (res, stale, mkey) ∧
        parseTagsForLookup mkey = ∅) :=
  cacheGet_emptyKey_always_matches [⟨"", 0, []⟩] 0 1 "zzz" ⟨"", 0, []⟩
    (List.mem_singleton.2 rfl) (by decide)

/-- C7 counterexample: set("a", R) followed by get with the same positive-tag
set does NOT return R when an earlier-stored row (here key "a -x") parses to
the same positive-tag set: the scan's strict comparison lets the earlier row
keep the win, so the old results are returned instead of R. -/
theorem set_get_roundtrip_counterexample :
    CacheManager.get
        (CacheManager.set [⟨"a -x", 100, [⟨1, "pA", ""⟩]⟩] 100 "a" [⟨2, "pB", ""⟩])
        100 5 "a" =
      some ([⟨1, "pA", ""⟩], false, "a -x") ∧
    ([⟨1, "pA", ""⟩] : List Post) ≠ [⟨2, "pB", ""⟩] := by
  constructor
  · decide
  · decide

/-- C7 (amended): a set(key, R) followed immediately by a get whose requested
positive-tag set equals that key's positive-tag set returns R unmodified with
isStale = false and matched key `key`, provided no other stored entry's parsed
positive-tag set equals the key's (otherwise an earlier equal-cardinality row
wins the tie) and the freshness TTL is positive. -/
theorem set_get_roundtrip (store : CacheStore) (now ttl : Int) (key q : String)
    (R : List Post) (httl : 0 < ttl)
    (hq : parseTagsForLookup q = parseTagsForLookup key)
    (huniq : ∀ r ∈ store, parseTagsForLookup r.tags = parseTagsForLookup key →
      r.tags = key) :
    CacheManager.get (CacheManager.set store now key R) now ttl q =
      some (R, false, key) := by
  have hscan : scanRows (parseTagsForLookup key) (CacheManager.set store now key R) =
      some ⟨key, now, R⟩ := by
    unfold CacheManager.set
    rw [scanRows_concat]
    have hsubnew : parseTagsForLookup (⟨key, now, R⟩ : CacheRow).tags ⊆
        parseTagsForLookup key := by exact Finset.Subset.refl _
    cases hsc : scanRows (parseTagsForLookup key)
        (store.filter (fun r => !decide (r.tags = key))) with
    | none => simp [betterCandidate, hsubnew]
    | some b =>
      obtain ⟨l1, l2, hdecomp, hsubb, -, -⟩ := scanRows_eq_some _ _ _ hsc
      have hbmem : b ∈ store.filter (fun r => !decide (r.tags = key)) := by
        rw [hdecomp]
        exact List.mem_append.2 (Or.inr (List.mem_cons_self _ _))
      rw [List.mem_filter] at hbmem
      have hbne : b.tags ≠ key := by
        intro hbeq
        rw [hbeq] at hbmem
        simp at hbmem
      have hcard : (parseTagsForLookup b.tags).card <
          (parseTagsForLookup (⟨key, now, R⟩ : CacheRow).tags).card := by
        have hne : parseTagsForLookup b.tags ≠ parseTagsForLookup key := by
          intro he
          exact hbne (huniq b hbmem.1 he)
        exact Finset.card_lt_card (lt_of_le_of_ne hsubb hne)
      simp [betterCandidate, hsubnew, hcard]
  unfold CacheManager.get
  rw [hq, hscan]
  have hstale : decide (ttl ≤ now - now) = false :=
    decide_eq_false (by omega)
  simp only []
  rw [hstale]

theorem set_get_roundtrip_witness :
    CacheManager.get (CacheManager.set [] 0 "a b" [⟨7, "t", "u"⟩]) 0 1 "b a" =
      some ([⟨7, "t", "u"⟩], false, "a b") :=
  set_get_roundtrip [] 0 1 "a b" "b a" [⟨7, "t", "u"⟩] (by decide) (by decide)
    (by intro r hr; exact absurd hr (List.not_mem_nil r))

/-- C8: pruneExpired deletes exactly the entries whose timestamp is older
than now - maxLifetime: membership characterization, the survivors are a
sublist of the original store (no other entry is modified or reordered), and
the two boundary cases of the claim. -/
theorem pruneExpired_spec (store : CacheStore) (now maxLifetime : Int) :
    (∀ r, r ∈ CacheManager.pruneExpired store now maxLifetime ↔
      r ∈ store ∧ ¬ r.timestamp < now - maxLifetime) ∧
    List.Sublist (CacheManager.pruneExpired store now maxLifetime) store ∧
    CacheManager.pruneExpired
        [⟨"old", now - maxLifetime - 1, []⟩, ⟨"young", now - maxLifetime + 1, []⟩]
        now maxLifetime =
      [⟨"young", now - maxLifetime + 1, []⟩] := by
  refine ⟨?_, ?_, ?_⟩
  · intro r
    unfold CacheManager.pruneExpired
    rw [List.mem_filter]
    simp
  · exact List.filter_sublist _
  · unfold CacheManager.pruneExpired
    have h1 : decide (now - maxLifetime - 1 < now - maxLifetime) = true :=
      decide_eq_true (by omega)
    have h2 : decide (now - maxLifetime + 1 < now - maxLifetime) = false :=
      decide_eq_false (by omega)
    simp [List.filter, h1, h2]

theorem pruneExpired_witness :
    (⟨"young", 901, []⟩ : CacheRow) ∈
        CacheManager.pruneExpired [⟨"old", 899, []⟩, ⟨"young", 901, []⟩] 1000 100 ↔
      (⟨"young", 901, []⟩ : CacheRow) ∈
          ([⟨"old", 899, []⟩, ⟨"young", 901, []⟩] : CacheStore) ∧
        ¬ (⟨"young", 901, []⟩ : CacheRow).timestamp < 1000 - 100 :=
  (pruneExpired_spec [⟨"old", 899, []⟩, ⟨"young", 901, []⟩] 1000 100).1 ⟨"young", 901, []⟩

/-- C3: when both tag sets are empty the result filter returns its input
unchanged; in general it equals the list filter retaining exactly the posts
whose whitespace-split tag set contains every required tag and meets no
excluded tag; membership characterization; and the claim's two concrete
examples (tags "a b c" with required {a} is rejected for excluded {c} and
accepted for excluded {d}). -/
theorem filterResults_spec (results : List Post) (req exc : Finset String) :
    (req = ∅ → exc = ∅ → filterResults results req exc = results) ∧
    filterResults results req exc =
      results.filter (fun p =>
        decide (req ⊆ postTags p) && decide (exc ∩ postTags p = ∅)) ∧
    (∀ p, p ∈ filterResults results req exc ↔
      p ∈ results ∧ req ⊆ postTags p ∧ exc ∩ postTags p = ∅) ∧
    filterResults [⟨1, "a b c", "u"⟩] {"a"} {"c"} = [] ∧
    filterResults [⟨1, "a b c", "u"⟩] {"a"} {"d"} = [⟨1, "a b c", "u"⟩] := by
  have hfe : filterResults results req exc =
      results.filter (fun p =>
        decide (req ⊆ postTags p) && decide (exc ∩ postTags p = ∅)) := by
    unfold filterResults
    by_cases h : req = ∅ ∧ exc = ∅
    · rw [if_pos h]
      obtain ⟨h1, h2⟩ := h
      subst h1; subst h2
      have : ∀ p : Post,
          (decide ((∅ : Finset String) ⊆ postTags p) &&
            decide ((∅ : Finset String) ∩ postTags p = ∅)) = true := by
        intro p
        simp
      rw [List.filter_eq_self.2 (fun p _ => this p)]
    · rw [if_neg h]
  refine ⟨?_, hfe, ?_, by decide, by decide⟩
  · intro h1 h2
    unfold filterResults
    rw [if_pos ⟨h1, h2⟩]
  · intro p
    rw [hfe, List.mem_filter]
    simp

theorem filterResults_witness :
    filterResults [⟨1, "a b c", "u"⟩] ∅ ∅ = [⟨1, "a b c", "u"⟩] :=
  (filterResults_spec [⟨1, "a b c", "u"⟩] ∅ ∅).1 rfl rfl

/-! ### Lemmas about tokenization and the safety-tag injection -/

theorem str_data_append (s t : String) : (s ++ t).data = s.data ++ t.data := by
  cases s; cases t; rfl

theorem splitWsAux_append_ws (ys : List Char) (c : Char) (hc : c.isWhitespace = true) :
    ∀ xs cur, splitWsAux (xs ++ c :: ys) cur =
      splitWsAux xs cur ++ splitWsAux ys [] := by
  intro xs
  induction xs with
  | nil =>
    intro cur
    simp [splitWsAux, hc]
  | cons a as ih =>
    intro cur
    by_cases ha : a.isWhitespace
    · simp [splitWsAux, ha, ih]
    · simp [splitWsAux, ha, ih]

theorem pyLowerSplit_append_safety (s : String) :
    pyLowerSplit (s ++ " -ai_generated") = pyLowerSplit s ++ ["-ai_generated"] := by
  unfold pyLowerSplit
  rw [str_data_append]
  rw [show (" -ai_generated" : String).data = ' ' :: ("-ai_generated" : String).data
    from rfl]
  rw [List.map_append]
  rw [show ((' ' :: ("-ai_generated" : String).data).map Char.toLower) =
    ' ' :: ("-ai_generated" : String).data from rfl]
  rw [splitWsAux_append_ws _ ' ' (by decide)]
  congr 1

theorem applyAliases_nil (s : Finset String) : applyAliases [] s = s := by
  unfold applyAliases aliasLookup
  simp

theorem joinSorted_singleton (a : String) : joinSorted {a} = a := by
  unfold joinSorted
  rw [Finset.sort_singleton]
  rfl

theorem joinSorted_empty : joinSorted ∅ = "" := by
  unfold joinSorted
  rw [Finset.sort_empty]
  rfl

/-- C10: the safety-tag injection guard is a raw substring test on the whole
input, not a token-level membership test: any input containing
`"-ai_generated"` as a substring is left unchanged, and in particular the
single-token input `"-ai_generated_art"` gets nothing appended even though
the exact token `"-ai_generated"` is absent from its token set. -/
theorem safety_guard_is_substring_test :
    (∀ t : String, strContains t "-ai_generated" = true → injectSafety t = t) ∧
    strContains "-ai_generated_art" "-ai_generated" = true ∧
    "-ai_generated" ∉ pyLowerSplit "-ai_generated_art" ∧
    injectSafety "-ai_generated_art" = "-ai_generated_art" := by
  refine ⟨?_, by decide, by decide, by decide⟩
  intro t h
  unfold injectSafety
  rw [h]
  rfl

theorem safety_guard_is_substring_test_witness :
    injectSafety "-ai_generated_art" = "-ai_generated_art" :=
  safety_guard_is_substring_test.1 "-ai_generated_art" (by decide)

/-- C4 counterexample: for the raw input "cat" (which does not contain the
safety tag) the injection does happen, yet the computed cache key equals the
key computed without the injection — the injected token is negative and the
cache key is built from positive tags only, so the key does not change. -/
theorem safety_injection_key_counterexample :
    strContains "cat" "-ai_generated" = false ∧
    injectSafety "cat" = "cat -ai_generated" ∧
    computeApiKey [] "cat" = keyWithoutInjection [] "cat" := by
  refine ⟨by decide, by decide, ?_⟩
  unfold computeApiKey keyWithoutInjection
  rw [show (parseTags (injectSafety "cat")).1 = {"cat"} from by decide]
  rw [show (parseTags "cat").1 = {"cat"} from by decide]

/-- C4 (amended): for every raw tag string not already containing the safety
exclusion tag, `" -ai_generated"` is appended before normalization and the
injected constraint lands in the negative tag set (used for result
filtering); the cache key, built from the positive tags only, is unchanged by
the injection. -/
theorem safety_injection_spec (tags : String) (aliases : List (String × String))
    (h : strContains tags "-ai_generated" = false) :
    injectSafety tags = tags ++ " -ai_generated" ∧
    (parseTags (injectSafety tags)).1 = (parseTags tags).1 ∧
    (parseTags (injectSafety tags)).2 = (parseTags tags).2 ∪ {"ai_generated"} ∧
    computeApiKey aliases tags = keyWithoutInjection aliases tags := by
  have hinj : injectSafety tags = tags ++ " -ai_generated" := by
    unfold injectSafety
    rw [h]
    rfl
  have hsplit := pyLowerSplit_append_safety tags
  have hpos : (parseTags (injectSafety tags)).1 = (parseTags tags).1 := by
    rw [hinj]
    show ((pyLowerSplit (tags ++ " -ai_generated")).filter
        (fun t => !(pyStartsWith t "-"))).toFinset =
      ((pyLowerSplit tags).filter (fun t => !(pyStartsWith t "-"))).toFinset
    rw [hsplit, List.filter_append]
    rw [show (["-ai_generated"].filter (fun t => !(pyStartsWith t "-"))) =
      ([] : List String) from rfl]
    rw [List.append_nil]
  have hneg : (parseTags (injectSafety tags)).2 =
      (parseTags tags).2 ∪ {"ai_generated"} := by
    rw [hinj]
    show (((pyLowerSplit (tags ++ " -ai_generated")).filter
        (fun t => pyStartsWith t "-")).map pyDropOne).toFinset =
      (((pyLowerSplit tags).filter
        (fun t => pyStartsWith t "-")).map pyDropOne).toFinset ∪ {"ai_generated"}
    rw [hsplit, List.filter_append]
    rw [show (["-ai_generated"].filter (fun t => pyStartsWith t "-")) =
      ["-ai_generated"] from rfl]
    rw [List.map_append, List.toFinset_append]
    rw [show ((["-ai_generated"].map pyDropOne).toFinset) =
      ({"ai_generated"} : Finset String) from rfl]
  refine ⟨hinj, hpos, hneg, ?_⟩
  unfold computeApiKey keyWithoutInjection
  rw [hpos]

theorem safety_injection_spec_witness :
    injectSafety "cat dog" = "cat dog -ai_generated" ∧
    (parseTags (injectSafety "cat dog")).1 = (parseTags "cat dog").1 ∧
    (parseTags (injectSafety "cat dog")).2 =
      (parseTags "cat dog").2 ∪ {"ai_generated"} ∧
    computeApiKey [] "cat dog" = keyWithoutInjection [] "cat dog" :=
  safety_injection_spec "cat dog" [] (by decide)

/-! ### Lemmas about the incremental fetch -/

theorem foldlMax_init_le (l : List Post) :
    ∀ a : Int, a ≤ l.foldl (fun m q => max m q.id) a := by
  induction l with
  | nil => intro a; exact le_refl a
  | cons q qs ih =>
    intro a
    exact le_trans (le_max_left a q.id) (ih (max a q.id))

theorem foldlMax_mem_le (l : List Post) :
    ∀ a : Int, ∀ x ∈ l, x.id ≤ l.foldl (fun m q => max m q.id) a := by
  induction l with
  | nil => intro a x hx; exact absurd hx (List.not_mem_nil x)
  | cons q qs ih =>
    intro a x hx
    rcases List.mem_cons.1 hx with rfl | hx
    · exact le_trans (le_max_right a x.id) (foldlMax_init_le qs (max a x.id))
    · exact ih (max a q.id) x hx

theorem foldlMax_attained (l : List Post) :
    ∀ a : Int, l.foldl (fun m q => max m q.id) a = a ∨
      ∃ x ∈ l, l.foldl (fun m q => max m q.id) a = x.id := by
  induction l with
  | nil => intro a; exact Or.inl rfl
  | cons q qs ih =>
    intro a
    rcases ih (max a q.id) with h | ⟨x, hx, hh⟩
    · rcases max_choice a q.id with hm | hm
      · exact Or.inl (by rw [List.foldl_cons, h, hm])
      · exact Or.inr ⟨q, List.mem_cons_self _ _, by rw [List.foldl_cons, h, hm]⟩
    · exact Or.inr ⟨x, List.mem_cons_of_mem _ hx, hh⟩

theorem latestKnownId_ge (l : List Post) (p : Post) (hp : p ∈ l) :
    p.id ≤ latestKnownId l := by
  cases l with
  | nil => exact absurd hp (List.not_mem_nil p)
  | cons q qs =>
    rcases List.mem_cons.1 hp with rfl | hp
    · exact foldlMax_init_le qs p.id
    · exact foldlMax_mem_le qs q.id p hp

theorem latestKnownId_attained (l : List Post) (h : l ≠ []) :
    ∃ p ∈ l, p.id = latestKnownId l := by
  cases l with
  | nil => exact absurd rfl h
  | cons q qs =>
    rcases foldlMax_attained qs q.id with hh | ⟨x, hx, hh⟩
    · exact ⟨q, List.mem_cons_self _ _, hh.symm⟩
    · exact ⟨x, List.mem_cons_of_mem _ hx, hh.symm⟩

theorem incrementalLoop_requests_le (o : Nat → PageResponse) (l : Int) :
    ∀ fuel pid acc, (incrementalLoop o l fuel pid acc).2 ≤ fuel := by
  intro fuel
  induction fuel with
  | zero => intro pid acc; simp [incrementalLoop]
  | succ n ih =>
    intro pid acc
    unfold incrementalLoop
    cases ho : o pid with
    | ok data =>
      cases data with
      | nil =>
        show (1 : Nat) ≤ n + 1
        omega
      | cons d ds =>
        simp only [List.isEmpty_cons, Bool.false_eq_true, if_false]
        by_cases hl : (List.filter (fun p => decide (l < p.id)) (d :: ds)).length <
            (d :: ds).length
        · rw [if_pos hl]
          show (1 : Nat) ≤ n + 1
          omega
        · rw [if_neg hl]
          have hrec := ih (pid + 1)
            (acc ++ List.filter (fun p => decide (l < p.id)) (d :: ds))
          show (incrementalLoop o l n (pid + 1)
            (acc ++ List.filter (fun p => decide (l < p.id)) (d :: ds))).2 + 1 ≤ n + 1
          omega
    | notList =>
      show (1 : Nat) ≤ n + 1
      omega
    | httpError s =>
      show (1 : Nat) ≤ n + 1
      omega
    | exn e =>
      show (1 : Nat) ≤ n + 1
      omega

theorem incrementalLoop_mem (o : Nat → PageResponse) (l : Int) :
    ∀ fuel pid acc p, p ∈ (incrementalLoop o l fuel pid acc).1 →
      p ∈ acc ∨ l < p.id := by
  intro fuel
  induction fuel with
  | zero => intro pid acc p hp; exact Or.inl hp
  | succ n ih =>
    intro pid acc p hp
    unfold incrementalLoop at hp
    cases ho : o pid with
    | ok data =>
      rw [ho] at hp
      cases data with
      | nil => exact Or.inl hp
      | cons d ds =>
        simp only [List.isEmpty_cons, Bool.false_eq_true, if_false] at hp
        by_cases hl : (List.filter (fun p => decide (l < p.id)) (d :: ds)).length <
            (d :: ds).length
        · rw [if_pos hl] at hp
          rcases List.mem_append.1 hp with hp | hp
          · exact Or.inl hp
          · exact Or.inr (of_decide_eq_true (List.mem_filter.1 hp).2)
        · rw [if_neg hl] at hp
          have hp2 : p ∈ (incrementalLoop o l n (pid + 1)
              (acc ++ List.filter (fun p => decide (l < p.id)) (d :: ds))).1 := hp
          rcases ih (pid + 1) (acc ++ List.filter (fun p => decide (l < p.id)) (d :: ds))
              p hp2 with hp3 | hp3
          · rcases List.mem_append.1 hp3 with hp4 | hp4
            · exact Or.inl hp4
            · exact Or.inr (of_decide_eq_true (List.mem_filter.1 hp4).2)
          · exact Or.inr hp3
    | notList => rw [ho] at hp; exact Or.inl hp
    | httpError s => rw [ho] at hp; exact Or.inl hp
    | exn e => rw [ho] at hp; exact Or.inl hp

theorem incrementalLoop_nonfinal (o : Nat → PageResponse) (l : Int) :
    ∀ fuel pid acc k, k + 1 < (incrementalLoop o l fuel pid acc).2 →
      ∃ data, o (pid + k) = .ok data ∧ data ≠ [] ∧
        (data.filter (fun p => decide (l < p.id))).length = data.length := by
  intro fuel
  induction fuel with
  | zero => intro pid acc k hk; simp [incrementalLoop] at hk
  | succ n ih =>
    intro pid acc k hk
    unfold incrementalLoop at hk
    cases ho : o pid with
    | ok data =>
      rw [ho] at hk
      cases data with
      | nil =>
        have hk1 : k + 1 < 1 := hk
        omega
      | cons d ds =>
        simp only [List.isEmpty_cons, Bool.false_eq_true, if_false] at hk
        by_cases hl : (List.filter (fun p => decide (l < p.id)) (d :: ds)).length <
            (d :: ds).length
        · rw [if_pos hl] at hk
          have hk1 : k + 1 < 1 := hk
          omega
        · rw [if_neg hl] at hk
          have hk2 : k + 1 < (incrementalLoop o l n (pid + 1)
              (acc ++ List.filter (fun p => decide (l < p.id)) (d :: ds))).2 + 1 := hk
          cases k with
          | zero =>
            refine ⟨d :: ds, by rw [Nat.add_zero]; exact ho, by simp, ?_⟩
            have hle : (List.filter (fun p => decide (l < p.id)) (d :: ds)).length ≤
                (d :: ds).length := List.length_filter_le _ _
            omega
          | succ j =>
            have hj : j + 1 < (incrementalLoop o l n (pid + 1)
                (acc ++ List.filter (fun p => decide (l < p.id)) (d :: ds))).2 := by
              omega
            obtain ⟨dd, hd, hne, hflen⟩ :=
              ih (pid + 1) (acc ++ List.filter (fun p => decide (l < p.id)) (d :: ds)) j hj
            refine ⟨dd, ?_, hne, hflen⟩
            rw [show pid + (j + 1) = pid + 1 + j from by omega]
            exact hd
    | notList =>
      rw [ho] at hk
      have hk1 : k + 1 < 1 := hk
      omega
    | httpError s =>
      rw [ho] at hk
      have hk1 : k + 1 < 1 := hk
      omega
    | exn e =>
      rw [ho] at hk
      have hk1 : k + 1 < 1 := hk
      omega

/-- C2: for every incremental (stale-cache) refresh: latestKnownId is the
maximum cached id (0 if the cached list is empty); every kept fetched item
has id strictly greater than latestKnownId; at most 10 pages are requested
and every page before the last one requested was a full page of new items
(so the loop stops as soon as a page yields fewer new items than it
returned, on a failure, or at the page cap); when no new items were found
no cache write occurs and the data served is the cached list unchanged;
otherwise the merge drops the new items whose id already occurs in the
cached set, prepends the rest, and writes the merged list back under the
matched key; and the claim's concrete merge example. -/
theorem incrementalRefresh_spec (oracle : Nat → PageResponse) (now : Int)
    (store : CacheStore) (key : String) (cached : List Post) :
    (cached = [] → latestKnownId cached = 0) ∧
    (∀ p ∈ cached, p.id ≤ latestKnownId cached) ∧
    (cached ≠ [] → ∃ p ∈ cached, p.id = latestKnownId cached) ∧
    (∀ p ∈ (incrementalRefresh oracle now store key cached).newPosts,
      latestKnownId cached < p.id) ∧
    (incrementalRefresh oracle now store key cached).requests ≤ 10 ∧
    (∀ k, k + 1 < (incrementalRefresh oracle now store key cached).requests →
      ∃ data, oracle k = .ok data ∧ data ≠ [] ∧
        (data.filter (fun p => decide (latestKnownId cached < p.id))).length =
          data.length) ∧
    ((incrementalRefresh oracle now store key cached).newPosts = [] →
      (incrementalRefresh oracle now store key cached).sourceData = cached ∧
      (incrementalRefresh oracle now store key cached).store = store) ∧
    ((incrementalRefresh oracle now store key cached).newPosts ≠ [] →
      (incrementalRefresh oracle now store key cached).sourceData =
        mergeNewPosts (incrementalRefresh oracle now store key cached).newPosts
          cached ∧
      (incrementalRefresh oracle now store key cached).store =
        CacheManager.set store now key
          (incrementalRefresh oracle now store key cached).sourceData) ∧
    mergeNewPosts [⟨5, "", ""⟩, ⟨3, "", ""⟩] [⟨3, "", ""⟩, ⟨2, "", ""⟩] =
      [⟨5, "", ""⟩, ⟨3, "", ""⟩, ⟨2, "", ""⟩] := by
  have hnew : (incrementalRefresh oracle now store key cached).newPosts =
      (incrementalLoop oracle (latestKnownId cached) 10 0 []).1 := by
    unfold incrementalRefresh
    dsimp only
    split <;> rfl
  have hreq : (incrementalRefresh oracle now store key cached).requests =
      (incrementalLoop oracle (latestKnownId cached) 10 0 []).2 := by
    unfold incrementalRefresh
    dsimp only
    split <;> rfl
  refine ⟨?_, ?_, ?_, ?_, ?_, ?_, ?_, ?_, by decide⟩
  · intro h; rw [h]; rfl
  · intro p hp; exact latestKnownId_ge cached p hp
  · intro h; exact latestKnownId_attained cached h
  · intro p hp
    rw [hnew] at hp
    rcases incrementalLoop_mem oracle (latestKnownId cached) 10 0 [] p hp with h | h
    · exact absurd h (List.not_mem_nil p)
    · exact h
  · rw [hreq]
    exact incrementalLoop_requests_le oracle (latestKnownId cached) 10 0 []
  · intro k hk
    rw [hreq] at hk
    obtain ⟨data, hd, hne, hflen⟩ :=
      incrementalLoop_nonfinal oracle (latestKnownId cached) 10 0 [] k hk
    rw [Nat.zero_add] at hd
    exact ⟨data, hd, hne, hflen⟩
  · intro h
    rw [hnew] at h
    constructor
    · unfold incrementalRefresh
      dsimp only
      rw [h]
      rfl
    · unfold incrementalRefresh
      dsimp only
      rw [h]
      rfl
  · intro h
    rw [hnew] at h
    have hfalse : (incrementalLoop oracle (latestKnownId cached) 10 0 []).1.isEmpty =
        false := by
      cases hres1 : (incrementalLoop oracle (latestKnownId cached) 10 0 []).1 with
      | nil => exact absurd hres1 h
      | cons a as => rfl
    constructor
    · unfold incrementalRefresh
      dsimp only
      rw [hfalse]
      rfl
    · unfold incrementalRefresh
      dsimp only
      rw [hfalse]
      rfl

theorem incrementalRefresh_witness :
    ([⟨3, "x", ""⟩, ⟨2, "y", ""⟩] : List Post) ≠ [] →
      ∃ p ∈ ([⟨3, "x", ""⟩, ⟨2, "y", ""⟩] : List Post),
        p.id = latestKnownId [⟨3, "x", ""⟩, ⟨2, "y", ""⟩] :=
  (incrementalRefresh_spec (fun _ => .notList) 0 [] "k"
    [⟨3, "x", ""⟩, ⟨2, "y", ""⟩]).2.2.1

/-! ### Lemmas about the full fetch -/

theorem filterResults_nil (req exc : Finset String) : filterResults [] req exc = [] := by
  unfold filterResults
  split <;> rfl

theorem fullFetchLoop_pages (cog : String) (oracle : Nat → PageResponse)
    (d : Nat → List Post) :
    ∀ k fuel pid acc, k + 1 ≤ fuel →
      (∀ j, j < k → oracle (pid + j) = .ok (d (pid + j)) ∧
        (d (pid + j)).length = 1000) →
      oracle (pid + k) = .notList →
      fullFetchLoop cog oracle fuel pid acc =
        (.ok (acc ++ pagesFrom d pid k), k + 1) := by
  intro k
  induction k with
  | zero =>
    intro fuel pid acc hf hj hk
    cases fuel with
    | zero => omega
    | succ f =>
      unfold fullFetchLoop
      rw [Nat.add_zero] at hk
      rw [hk]
      show (Except.ok acc, 1) = (Except.ok (acc ++ pagesFrom d pid 0), 0 + 1)
      rw [show pagesFrom d pid 0 = [] from rfl, List.append_nil]
  | succ k ih =>
    intro fuel pid acc hf hj hnl
    cases fuel with
    | zero => omega
    | succ f =>
      have h0 := hj 0 (by omega)
      rw [Nat.add_zero] at h0
      have hklef : k + 1 ≤ f := by omega
      have hj2 : ∀ j, j < k → oracle (pid + 1 + j) = .ok (d (pid + 1 + j)) ∧
          (d (pid + 1 + j)).length = 1000 := by
        intro j hjk
        have hstep := hj (j + 1) (by omega)
        rw [show pid + (j + 1) = pid + 1 + j from by omega] at hstep
        exact hstep
      have hnl2 : oracle (pid + 1 + k) = .notList := by
        rw [show pid + 1 + k = pid + (k + 1) from by omega]
        exact hnl
      have hrec := ih f (pid + 1) (acc ++ d pid) hklef hj2 hnl2
      unfold fullFetchLoop
      rw [h0.1]
      cases hdp : d pid with
      | nil =>
        rw [hdp] at h0
        simp at h0
      | cons x xs =>
        rw [hdp] at hrec
        have hnlt : ¬ (x :: xs).length < 1000 := by
          have hlen := h0.2
          rw [hdp] at hlen
          omega
        dsimp only
        rw [if_neg hnlt, hrec]
        show (Except.ok (acc ++ (x :: xs) ++ pagesFrom d (pid + 1) k), (k + 1) + 1) =
          (Except.ok (acc ++ pagesFrom d pid (k + 1)), k + 1 + 1)
        rw [show pagesFrom d pid (k + 1) = d pid ++ pagesFrom d (pid + 1) k from rfl,
          hdp, List.append_assoc]

/-- C6: on a caller-blocking full fetch (cache miss), a first-page response
that is not a homogeneous list makes the whole call return a user-visible
string to the caller with no cache write, exactly as a first-page transport
error (non-200 status or exception) does; on any later page the same
condition ends pagination and the partial data collected so far is used
(cached under the api key and passed on as the source data). -/
theorem malformed_first_page_spec (cfg : CogConfig)
    (oracle : String → Nat → PageResponse) (pick : List Post → Post)
    (now ttl : Int) (store : CacheStore) (tags : String) (pidO limO : Option Nat)
    (hmiss : CacheManager.get store now ttl (computeApiKey cfg.aliases tags) = none) :
    (oracle (computeApiKey cfg.aliases tags) 0 = .notList →
      fetchPostsLogic cfg oracle pick now ttl store tags pidO limO =
        ⟨.message (noResultsMessage cfg.cogName tags), store, 1⟩) ∧
    (∀ s, oracle (computeApiKey cfg.aliases tags) 0 = .httpError s →
      fetchPostsLogic cfg oracle pick now ttl store tags pidO limO =
        ⟨.message (httpErrorMessage cfg.cogName s), store, 1⟩) ∧
    (∀ e, oracle (computeApiKey cfg.aliases tags) 0 = .exn e →
      fetchPostsLogic cfg oracle pick now ttl store tags pidO limO =
        ⟨.message (networkErrorMessage cfg.cogName e), store, 1⟩) ∧
    (∀ k d, 0 < k → k + 1 ≤ 10 →
      (∀ j, j < k → oracle (computeApiKey cfg.aliases tags) j = .ok (d j) ∧
        (d j).length = 1000) →
      oracle (computeApiKey cfg.aliases tags) k = .notList →
      (fetchCore cfg oracle now ttl store tags).data = .ok (pagesFrom d 0 k) ∧
      (fetchCore cfg oracle now ttl store tags).store =
        CacheManager.set store now (computeApiKey cfg.aliases tags)
          (pagesFrom d 0 k) ∧
      (fetchCore cfg oracle now ttl store tags).requests = k + 1) := by
  refine ⟨?_, ?_, ?_, ?_⟩
  · intro hn
    have hloop : fullFetchLoop cfg.cogName (oracle (computeApiKey cfg.aliases tags))
        10 0 [] = (.ok [], 1) := by
      unfold fullFetchLoop
      rw [hn]
    have hcore : fetchCore cfg oracle now ttl store tags =
        ⟨.ok [], store, 1, injectSafety tags, (parseTags (injectSafety tags)).1,
          (parseTags (injectSafety tags)).2, computeApiKey cfg.aliases tags⟩ := by
      unfold fetchCore
      dsimp only
      rw [hmiss, hloop]
      rfl
    unfold fetchPostsLogic
    dsimp only
    rw [hcore]
    dsimp only
    rw [filterResults_nil]
    rfl
  · intro s hn
    have hloop : fullFetchLoop cfg.cogName (oracle (computeApiKey cfg.aliases tags))
        10 0 [] = (.error (httpErrorMessage cfg.cogName s), 1) := by
      unfold fullFetchLoop
      rw [hn]
      rfl
    have hcore : fetchCore cfg oracle now ttl store tags =
        ⟨.error (httpErrorMessage cfg.cogName s), store, 1, injectSafety tags,
          (parseTags (injectSafety tags)).1, (parseTags (injectSafety tags)).2,
          computeApiKey cfg.aliases tags⟩ := by
      unfold fetchCore
      dsimp only
      rw [hmiss, hloop]
    unfold fetchPostsLogic
    dsimp only
    rw [hcore]
  · intro e hn
    have hloop : fullFetchLoop cfg.cogName (oracle (computeApiKey cfg.aliases tags))
        10 0 [] = (.error (networkErrorMessage cfg.cogName e), 1) := by
      unfold fullFetchLoop
      rw [hn]
      rfl
    have hcore : fetchCore cfg oracle now ttl store tags =
        ⟨.error (networkErrorMessage cfg.cogName e), store, 1, injectSafety tags,
          (parseTags (injectSafety tags)).1, (parseTags (injectSafety tags)).2,
          computeApiKey cfg.aliases tags⟩ := by
      unfold fetchCore
      dsimp only
      rw [hmiss, hloop]
    unfold fetchPostsLogic
    dsimp only
    rw [hcore]
  · intro k d hk0 hk10 hj hnl
    have hloop := fullFetchLoop_pages cfg.cogName
      (oracle (computeApiKey cfg.aliases tags)) d k 10 0 [] hk10
      (by intro j hjk; rw [Nat.zero_add]; exact hj j hjk)
      (by rw [Nat.zero_add]; exact hnl)
    rw [List.nil_append] at hloop
    have hne : (pagesFrom d 0 k).isEmpty = false := by
      cases k with
      | zero => omega
      | succ kk =>
        have h00 := (hj 0 (by omega)).2
        show (d 0 ++ pagesFrom d 1 kk).isEmpty = false
        cases hd0 : d 0 with
        | nil => rw [hd0] at h00; simp at h00
        | cons a as => rfl
    have hcore : fetchCore cfg oracle now ttl store tags =
        ⟨.ok (pagesFrom d 0 k),
          CacheManager.set store now (computeApiKey cfg.aliases tags)
            (pagesFrom d 0 k),
          k + 1, injectSafety tags, (parseTags (injectSafety tags)).1,
          (parseTags (injectSafety tags)).2, computeApiKey cfg.aliases tags⟩ := by
      unfold fetchCore
      dsimp only
      rw [hmiss, hloop]
      dsimp only
      rw [hne]
      rfl
    refine ⟨?_, ?_, ?_⟩ <;> rw [hcore]

theorem malformed_first_page_witness :
    fetchPostsLogic ⟨"Safebooru", [], fun i => s!"u/{i}"⟩ (fun _ _ => .notList)
        (fun l => l.headD ⟨0, "", ""⟩) 0 10 [] "cat" none none =
      ⟨.message (noResultsMessage "Safebooru" "cat"), [], 1⟩ :=
  (malformed_first_page_spec ⟨"Safebooru", [], fun i => s!"u/{i}"⟩
      (fun _ _ => .notList) (fun l => l.headD ⟨0, "", ""⟩) 0 10 [] "cat" none none
      rfl).1 rfl

/-- C5 counterexample: with an explicit pagination override (pid 2, limit 30)
and a fresh cache entry for the requested tags, the call still reads the
cache (the returned listing is the cached post, although the upstream oracle
always fails) and performs zero upstream page requests — not exactly one —
so the override path does not bypass the cache. -/
theorem fetch_override_counterexample :
    fetchPostsLogic ⟨"Rule34", [], fun i => s!"url/{i}"⟩ (fun _ _ => .exn "boom")
        (fun l => l.headD ⟨0, "", ""⟩) 100 50 [⟨"a", 100, [⟨1, "a b", "u"⟩]⟩]
        "a -ai_generated" (some 2) (some 30) =
      ⟨.listing [⟨1, "a b", "u"⟩], [⟨"a", 100, [⟨1, "a b", "u"⟩]⟩], 0⟩ := by
  have hkey : computeApiKey [] "a -ai_generated" = "a" := by
    unfold computeApiKey
    rw [show (parseTags (injectSafety "a -ai_generated")).1 = {"a"} from by decide]
    rw [applyAliases_nil, joinSorted_singleton]
  unfold fetchPostsLogic fetchCore
  dsimp only
  rw [hkey]
  decide

/-- C5 (amended): an explicit pagination override does not change the fetch
behaviour at all — the cache read, any incremental or full fetch, the cache
write and the request count are identical to the call without the override —
it only changes the shape of the return value: the full filtered list is
returned instead of the random-pick tuple (and error/no-result messages are
returned unchanged). -/
theorem fetch_override_only_changes_shape (cfg : CogConfig)
    (oracle : String → Nat → PageResponse) (pick : List Post → Post)
    (now ttl : Int) (store : CacheStore) (tags : String) (pidO limO : Option Nat)
    (h : (pidO.isSome || limO.isSome) = true) :
    (fetchPostsLogic cfg oracle pick now ttl store tags pidO limO).store =
      (fetchPostsLogic cfg oracle pick now ttl store tags none none).store ∧
    (fetchPostsLogic cfg oracle pick now ttl store tags pidO limO).requests =
      (fetchPostsLogic cfg oracle pick now ttl store tags none none).requests ∧
    (∀ s, (fetchPostsLogic cfg oracle pick now ttl store tags none none).result =
        .message s →
      (fetchPostsLogic cfg oracle pick now ttl store tags pidO limO).result =
        .message s) ∧
    (∀ t fl u,
      (fetchPostsLogic cfg oracle pick now ttl store tags none none).result =
        .picked t fl u →
      (fetchPostsLogic cfg oracle pick now ttl store tags pidO limO).result =
        .listing fl) := by
  unfold fetchPostsLogic
  dsimp only
  cases hd : (fetchCore cfg oracle now ttl store tags).data with
  | error msg =>
    exact ⟨rfl, rfl, fun s hs => hs, fun t fl u ht => absurd ht (by simp)⟩
  | ok sourceData =>
    dsimp only
    by_cases hfe : (filterResults sourceData
        (fetchCore cfg oracle now ttl store tags).posTags
        (fetchCore cfg oracle now ttl store tags).negTags).isEmpty = true
    · rw [if_pos hfe, if_pos hfe]
      exact ⟨rfl, rfl, fun s hs => hs, fun t fl u ht => absurd ht (by simp)⟩
    · rw [if_neg hfe, if_neg hfe, if_pos h]
      refine ⟨rfl, rfl, ?_, ?_⟩
      · intro s hs
        simp only [Option.isSome_none, Bool.or_self, Bool.false_eq_true,
          if_false] at hs
        simp at hs
      · intro t fl u ht
        simp only [Option.isSome_none, Bool.or_self, Bool.false_eq_true,
          if_false] at ht
        injection ht with h1 h2 h3
        exact congrArg FetchResult.listing h2

theorem fetch_override_shape_witness :
    (fetchPostsLogic ⟨"R", [], fun _ => ""⟩ (fun _ _ => .notList)
        (fun l => l.headD ⟨0, "", ""⟩) 0 1 [] "x" (some 0) none).store =
      (fetchPostsLogic ⟨"R", [], fun _ => ""⟩ (fun _ _ => .notList)
        (fun l => l.headD ⟨0, "", ""⟩) 0 1 [] "x" none none).store ∧
    (fetchPostsLogic ⟨"R", [], fun _ => ""⟩ (fun _ _ => .notList)
        (fun l => l.headD ⟨0, "", ""⟩) 0 1 [] "x" (some 0) none).requests =
      (fetchPostsLogic ⟨"R", [], fun _ => ""⟩ (fun _ _ => .notList)
        (fun l => l.headD ⟨0, "", ""⟩) 0 1 [] "x" none none).requests ∧
    (∀ s, (fetchPostsLogic ⟨"R", [], fun _ => ""⟩ (fun _ _ => .notList)
        (fun l => l.headD ⟨0, "", ""⟩) 0 1 [] "x" none none).result = .message s →
      (fetchPostsLogic ⟨"R", [], fun _ => ""⟩ (fun _ _ => .notList)
        (fun l => l.headD ⟨0, "", ""⟩) 0 1 [] "x" (some 0) none).result =
        .message s) ∧
    (∀ t fl u, (fetchPostsLogic ⟨"R", [], fun _ => ""⟩ (fun _ _ => .notList)
        (fun l => l.headD ⟨0, "", ""⟩) 0 1 [] "x" none none).result =
        .picked t fl u →
      (fetchPostsLogic ⟨"R", [], fun _ => ""⟩ (fun _ _ => .notList)
        (fun l => l.headD ⟨0, "", ""⟩) 0 1 [] "x" (some 0) none).result =
        .listing fl) :=
  fetch_override_only_changes_shape ⟨"R", [], fun _ => ""⟩ (fun _ _ => .notList)
    (fun l => l.headD ⟨0, "", ""⟩) 0 1 [] "x" (some 0) none rfl
